import Mathlib

/-!
Verification of the comment-threading logic of the youtube-scraper repository.

The repository's core algorithm turns a flat list of comment records (each
carrying its own identifier and a parent identifier) into a forest of reply
trees.  It appears in two forms:

* `nest_comments` in `utils.py`: builds a dictionary from `comment_id` to the
  record object, then walks the input once, appending each record either to
  the top-level result list or, in place, to its parent's
  `comments_replies_list`.
* a three-pass variant duplicated inside `download_video_info` in
  `download_video.py` and `main.py`: collects all comments into a dictionary
  keyed by id, groups children by parent id, then emits only the comments
  whose parent is the literal string `"root"`, each with its direct children
  attached.

Python records are mutable objects manipulated through references, so
`nest_comments` is embedded as a small heap semantics: the store is the list
of records of the batch, a reference is the index of a record in that store,
and a record's `comments_replies_list` holds references.  The three-pass
variant copies dictionaries shallowly and nests only one level, so it is
embedded directly with values.
-/

/-- The `Comment` record of `youtube_class.py`, as consumed by
`nest_comments`.  The nested `author`/`reactions` payloads are flattened to a
single representative counter (`like_count`); `comment_time` (a datetime) is
represented by its epoch value.  `comments_replies_list`, a Python list of
references to other `Comment` objects, holds store indices. -/
structure Comment where
  comment_id : String
  url : String
  parent : String
  reply_to : String
  user_pro_pic : String
  comment_time : Int
  user_name : String
  user_profile_url : String
  comment_text : String
  like_count : Nat
  total_views : Nat
  total_replies : Nat
  total_reposts : Nat
  comments_replies_list : List Nat
deriving DecidableEq, Repr, Inhabited

/-- State of the `nest_comments` computation: the store of record objects
(the records of the input batch, mutated in place), and the `nested` result
list of references to top-level records. -/
structure NestState where
  store : List Comment
  nested : List Nat
deriving DecidableEq, Repr

/-- The dictionary `id_to_comment = {c.comment_id: c for c in comment_list}`
of `utils.py`.  A dict comprehension keeps, for each key, the value of the
last item producing that key (last-write-wins), so the lookup finds the last
index of the batch carrying the requested `comment_id`. -/
def lookupIdx (batch : List Comment) (k : String) : Option Nat :=
  (batch.enum.reverse.find? (fun ic => ic.2.comment_id = k)).map Prod.fst

/-- Model of `id_to_comment[parent].comments_replies_list.append(...)`: mutate the
record at store index `pj`, appending the reference `ci` to its
`comments_replies_list`.  Out-of-range indices never occur (the index comes
from the lookup). -/
def appendReply (store : List Comment) (pj ci : Nat) : List Comment :=
  match store[pj]? with
  | some p =>
      store.set pj { p with comments_replies_list := p.comments_replies_list ++ [ci] }
  | none => store

/-- The `for comment in comment_list` loop of `nest_comments`.  For each
record: a `KeyError` on `id_to_comment[cid]` is modelled by `none`
(it is in fact unreachable, see the safety theorem); if
`parent == root_id` the looked-up record is appended to `nested`; else if
`parent` is a key of the lookup, the looked-up record is appended to the
parent's replies list; else the orphan is appended to `nested`. -/
def nestLoop (batch : List Comment) (root_id : String) :
    List Comment → NestState → Option NestState
  | [], s => some s
  | c :: rest, s =>
    match lookupIdx batch c.comment_id with
    | none => none
    | some ci =>
      if c.parent = root_id then
        nestLoop batch root_id rest { s with nested := s.nested ++ [ci] }
      else
        match lookupIdx batch c.parent with
        | some pj =>
            nestLoop batch root_id rest { s with store := appendReply s.store pj ci }
        | none =>
            nestLoop batch root_id rest { s with nested := s.nested ++ [ci] }

/-- Model of `nest_comments(comment_list, root_id)` of `utils.py`.  The initial store
is the input batch itself; `nested = []`. -/
def nest_comments (batch : List Comment) (root_id : String) : Option NestState :=
  nestLoop batch root_id batch { store := batch, nested := [] }

/-- Replay a log of `(parent index, child reference)` append events against a
store. -/
def applyLog (store : List Comment) (log : List (Nat × Nat)) : List Comment :=
  log.foldl (fun st e => appendReply st e.1 e.2) store

/-- Closed form of the references accumulated into `nested` while processing
the records of `l`: a record contributes (the lookup of) itself when its
parent is the root sentinel or is absent from the lookup. -/
def nestedCF (batch : List Comment) (root_id : String) (l : List Comment) : List Nat :=
  l.filterMap (fun c =>
    if c.parent = root_id ∨ lookupIdx batch c.parent = none then
      lookupIdx batch c.comment_id
    else none)

/-- Closed form of the append events produced while processing the records of
`l`: a record whose parent is not the sentinel and is a key of the lookup
produces the event (parent index, lookup of its own id). -/
def extraCF (batch : List Comment) (root_id : String) (l : List Comment) :
    List (Nat × Nat) :=
  l.filterMap (fun c =>
    if c.parent = root_id then none
    else
      (lookupIdx batch c.parent).bind (fun pj =>
        (lookupIdx batch c.comment_id).map (fun ci => (pj, ci))))

/-- The final state of `nest_comments`, in closed form. -/
def nestResult (batch : List Comment) (root_id : String) : NestState :=
  { store := applyLog batch (extraCF batch root_id batch)
    nested := nestedCF batch root_id batch }

theorem lookupIdx_isSome_of_mem {batch : List Comment} {c : Comment}
    (hc : c ∈ batch) : (lookupIdx batch c.comment_id).isSome := by
  rcases h : batch.enum.reverse.find? (fun ic => ic.2.comment_id = c.comment_id) with _ | p
  · exfalso
    rw [List.find?_eq_none] at h
    have hmem : ((List.indexOf c batch), c) ∈ batch.enum := by
      rw [List.mem_enum_iff_getElem?]
      exact List.getElem?_indexOf hc
    exact h _ (List.mem_reverse.2 hmem) (by simp)
  · simp [lookupIdx, h]

theorem lookupIdx_spec {batch : List Comment} {k : String} {j : Nat}
    (h : lookupIdx batch k = some j) :
    ∃ hj : j < batch.length, batch[j].comment_id = k := by
  unfold lookupIdx at h
  rcases hf : batch.enum.reverse.find? (fun ic => ic.2.comment_id = k) with _ | p
  · rw [hf] at h; exact Option.noConfusion h
  · rw [hf] at h
    have hpj : p.1 = j := Option.some.inj h
    have hp := List.find?_some hf
    have hmem : p ∈ batch.enum := List.mem_reverse.1 (List.mem_of_find?_eq_some hf)
    rw [List.mem_enum_iff_getElem?] at hmem
    have hlt : p.1 < batch.length := by
      by_contra hge
      rw [List.getElem?_eq_none (Nat.le_of_not_lt hge)] at hmem
      exact Option.noConfusion hmem
    subst hpj
    refine ⟨hlt, ?_⟩
    have hval : batch[p.1] = p.2 := by
      have hg := List.getElem?_eq_getElem hlt
      rw [hg] at hmem
      exact Option.some.inj hmem
    rw [hval]
    exact of_decide_eq_true hp

theorem lookupIdx_eq_none_iff {batch : List Comment} {k : String} :
    lookupIdx batch k = none ↔ ∀ c ∈ batch, c.comment_id ≠ k := by
  constructor
  · intro h c hc hk
    have := lookupIdx_isSome_of_mem hc
    rw [hk, h] at this
    simp at this
  · intro h
    unfold lookupIdx
    rcases hf : batch.enum.reverse.find? (fun ic => ic.2.comment_id = k) with _ | p
    · rw [hf]; rfl
    · exfalso
      have hp := List.find?_some hf
      have hmem : p ∈ batch.enum := List.mem_reverse.1 (List.mem_of_find?_eq_some hf)
      rw [List.mem_enum_iff_getElem?] at hmem
      have hlt : p.1 < batch.length := by
        by_contra hge
        rw [List.getElem?_eq_none (Nat.le_of_not_lt hge)] at hmem
        exact Option.noConfusion hmem
      have hpointer : batch[p.1] = p.2 := by
        have := List.getElem?_eq_getElem hlt
        rw [this] at hmem
        exact Option.some.inj hmem
      exact h batch[p.1] (List.getElem_mem hlt) (hpointer ▸ of_decide_eq_true hp)

/-- With pairwise distinct ids, looking up the id of the record at index `i`
returns `i` itself. -/
theorem lookupIdx_self {batch : List Comment}
    (hids : (batch.map Comment.comment_id).Nodup) {i : Nat} (hi : i < batch.length) :
    lookupIdx batch batch[i].comment_id = some i := by
  rcases h : lookupIdx batch batch[i].comment_id with _ | j
  · exfalso
    exact (lookupIdx_eq_none_iff.1 h) batch[i] (List.getElem_mem hi) rfl
  · obtain ⟨hj, hjid⟩ := lookupIdx_spec h
    have hji : j = i := by
      have h1 : (batch.map Comment.comment_id).get ⟨j, by simpa using hj⟩ =
          (batch.map Comment.comment_id).get ⟨i, by simpa using hi⟩ := by
        simp [hjid]
      have h2 := (List.Nodup.get_inj_iff hids).1 h1
      exact congrArg Fin.val h2
    rw [hji]

/-- The loop of `nest_comments`, characterized in closed form: provided every
record of the remaining input has its own id in the lookup (always true when
the input is the batch itself), the loop returns the initial state extended
by the closed-form `nested` references and append events. -/
theorem nestLoop_eq (batch : List Comment) (root_id : String) :
    ∀ (l : List Comment) (s : NestState),
      (∀ c ∈ l, (lookupIdx batch c.comment_id).isSome) →
      nestLoop batch root_id l s =
        some { store := applyLog s.store (extraCF batch root_id l)
               nested := s.nested ++ nestedCF batch root_id l } := by
  intro l
  induction l with
  | nil =>
      intro s _
      simp [nestLoop, applyLog, extraCF, nestedCF]
  | cons c rest ih =>
      intro s hall
      have hc : (lookupIdx batch c.comment_id).isSome := hall c (List.mem_cons_self c rest)
      obtain ⟨ci, hci⟩ := Option.isSome_iff_exists.1 hc
      have hrest : ∀ x ∈ rest, (lookupIdx batch x.comment_id).isSome := by
        intro x hx
        exact hall x (List.mem_cons_of_mem c hx)
      by_cases hroot : c.parent = root_id
      · have hstep : nestLoop batch root_id (c :: rest) s =
            nestLoop batch root_id rest { s with nested := s.nested ++ [ci] } := by
          simp [nestLoop, hci, hroot]
        rw [hstep, ih _ hrest]
        have hn : nestedCF batch root_id (c :: rest) =
            ci :: nestedCF batch root_id rest := by
          simp [nestedCF, List.filterMap_cons, hroot, hci]
        have he : extraCF batch root_id (c :: rest) = extraCF batch root_id rest := by
          simp [extraCF, List.filterMap_cons, hroot]
        rw [hn, he]
        simp
      · rcases hpar : lookupIdx batch c.parent with _ | pj
        · have hstep : nestLoop batch root_id (c :: rest) s =
              nestLoop batch root_id rest { s with nested := s.nested ++ [ci] } := by
            simp [nestLoop, hci, hroot, hpar]
          rw [hstep, ih _ hrest]
          have hn : nestedCF batch root_id (c :: rest) =
              ci :: nestedCF batch root_id rest := by
            simp [nestedCF, List.filterMap_cons, hroot, hpar, hci]
          have he : extraCF batch root_id (c :: rest) = extraCF batch root_id rest := by
            simp [extraCF, List.filterMap_cons, hroot, hpar]
          rw [hn, he]
          simp
        · have hstep : nestLoop batch root_id (c :: rest) s =
              nestLoop batch root_id rest { s with store := appendReply s.store pj ci } := by
            simp [nestLoop, hci, hroot, hpar]
          rw [hstep, ih _ hrest]
          have hn : nestedCF batch root_id (c :: rest) = nestedCF batch root_id rest := by
            simp [nestedCF, List.filterMap_cons, hroot, hpar]
          have he : extraCF batch root_id (c :: rest) =
              (pj, ci) :: extraCF batch root_id rest := by
            simp [extraCF, List.filterMap_cons, hroot, hpar, hci]
          rw [hn, he]
          simp [applyLog]

/-- Fact: `nest_comments` always succeeds and returns the closed-form result. -/
theorem nest_comments_eq (batch : List Comment) (root_id : String) :
    nest_comments batch root_id = some (nestResult batch root_id) := by
  unfold nest_comments nestResult
  rw [nestLoop_eq batch root_id batch _ (fun c hc => lookupIdx_isSome_of_mem hc)]
  simp

theorem appendReply_length (store : List Comment) (pj ci : Nat) :
    (appendReply store pj ci).length = store.length := by
  unfold appendReply
  rcases h : store[pj]? with _ | p
  · rfl
  · simp

theorem applyLog_length (log : List (Nat × Nat)) (store : List Comment) :
    (applyLog store log).length = store.length := by
  induction log generalizing store with
  | nil => rfl
  | cons e rest ih =>
      show (applyLog (appendReply store e.1 e.2) rest).length = store.length
      rw [ih, appendReply_length]

theorem appendReply_getElem? (store : List Comment) (pj ci j : Nat) :
    (appendReply store pj ci)[j]? =
      if pj = j then
        (store[j]?).map (fun p =>
          { p with comments_replies_list := p.comments_replies_list ++ [ci] })
      else store[j]? := by
  unfold appendReply
  rcases h : store[pj]? with _ | p
  · by_cases hj : pj = j
    · subst hj
      simp [h]
    · simp [hj]
  · have hlt : pj < store.length := by
      by_contra hge
      rw [List.getElem?_eq_none (Nat.le_of_not_lt hge)] at h
      exact Option.noConfusion h
    by_cases hj : pj = j
    · subst hj
      simp [List.getElem?_set, hlt, h]
    · simp [List.getElem?_set, hj]

/-- Replaying a log against a store changes only the `comments_replies_list`
fields: record `j` ends with its original replies list extended by the
children logged for parent `j`, and all other fields intact. -/
theorem applyLog_getElem? (log : List (Nat × Nat)) (store : List Comment) (j : Nat) :
    (applyLog store log)[j]? =
      (store[j]?).map (fun p =>
        { p with comments_replies_list :=
            p.comments_replies_list ++ (log.filter (fun e => e.1 = j)).map Prod.snd }) := by
  induction log generalizing store with
  | nil =>
      rcases h : store[j]? with _ | p
      · simp [applyLog, h]
      · simp [applyLog, h]
  | cons e rest ih =>
      show (applyLog (appendReply store e.1 e.2) rest)[j]? = _
      rw [ih, appendReply_getElem?]
      by_cases hj : e.1 = j
      · rw [if_pos hj, List.filter_cons, if_pos (by simpa using hj)]
        rcases h : store[j]? with _ | p
        · rfl
        · simp
      · rw [if_neg hj, List.filter_cons, if_neg (by simpa using hj)]

theorem filter_map_eq_filterMap {α β : Type} (p : α → Bool) (f : α → β) (l : List α) :
    (l.filter p).map f = l.filterMap (fun a => if p a then some (f a) else none) := by
  induction l with
  | nil => rfl
  | cons a t ih =>
      by_cases h : p a <;>
        simp [List.filter_cons, List.filterMap_cons, h, ih]

/-- The root-or-orphan test of the loop, as a Boolean predicate on records:
`parent == root_id` or `parent not in id_to_comment`. -/
def isTopLevel (batch : List Comment) (root_id : String) (c : Comment) : Bool :=
  c.parent = root_id || (lookupIdx batch c.parent).isNone

theorem mem_enum_getElem {batch : List Comment} {ic : Nat × Comment}
    (h : ic ∈ batch.enum) : ∃ hi : ic.1 < batch.length, batch[ic.1] = ic.2 := by
  rw [List.mem_enum_iff_getElem?] at h
  have hlt : ic.1 < batch.length := by
    by_contra hge
    rw [List.getElem?_eq_none (Nat.le_of_not_lt hge)] at h
    exact Option.noConfusion h
  refine ⟨hlt, ?_⟩
  rw [List.getElem?_eq_getElem hlt] at h
  exact Option.some.inj h

/-- With pairwise distinct ids, the top-level references accumulated by the
loop are exactly the indices of the records passing the root-or-orphan
test, in input order. -/
theorem nestedCF_batch_eq {batch : List Comment} {root_id : String}
    (hids : (batch.map Comment.comment_id).Nodup) :
    nestedCF batch root_id batch =
      (batch.enum.filter (fun ic => isTopLevel batch root_id ic.2)).map Prod.fst := by
  unfold nestedCF
  have hrw := List.filterMap_map Prod.snd
    (fun c => if c.parent = root_id ∨ lookupIdx batch c.parent = none then
        lookupIdx batch c.comment_id
      else none) batch.enum
  rw [List.enum_map_snd] at hrw
  rw [hrw, filter_map_eq_filterMap]
  apply List.filterMap_congr
  intro ic hic
  obtain ⟨hi, hval⟩ := mem_enum_getElem hic
  show (if ic.2.parent = root_id ∨ lookupIdx batch ic.2.parent = none then
          lookupIdx batch ic.2.comment_id
        else none) =
      (if isTopLevel batch root_id ic.2 then some ic.1 else none)
  by_cases h : ic.2.parent = root_id ∨ lookupIdx batch ic.2.parent = none
  · have hb : isTopLevel batch root_id ic.2 = true := by
      rcases h with h | h
      · simp [isTopLevel, h]
      · simp [isTopLevel, h]
    rw [if_pos h, if_pos hb, ← hval]
    exact lookupIdx_self hids hi
  · have hb : ¬ isTopLevel batch root_id ic.2 = true := by
      simp only [isTopLevel, Bool.or_eq_true, decide_eq_true_eq, Option.isNone_iff_eq_none]
      exact h
    rw [if_neg h, if_neg hb]

/-- With pairwise distinct ids, the child references recorded by the append
events are exactly the indices of the records failing the root-or-orphan
test, in input order. -/
theorem extraCF_snd_batch_eq {batch : List Comment} {root_id : String}
    (hids : (batch.map Comment.comment_id).Nodup) :
    (extraCF batch root_id batch).map Prod.snd =
      (batch.enum.filter (fun ic => ! isTopLevel batch root_id ic.2)).map Prod.fst := by
  unfold extraCF
  have hrw := List.filterMap_map Prod.snd
    (fun c => if c.parent = root_id then none
      else (lookupIdx batch c.parent).bind (fun pj =>
        (lookupIdx batch c.comment_id).map (fun ci => (pj, ci)))) batch.enum
  rw [List.enum_map_snd] at hrw
  rw [hrw, List.map_filterMap, filter_map_eq_filterMap]
  apply List.filterMap_congr
  intro ic hic
  obtain ⟨hi, hval⟩ := mem_enum_getElem hic
  show (Option.map Prod.snd
        (if ic.2.parent = root_id then none
         else (lookupIdx batch ic.2.parent).bind (fun pj =>
            (lookupIdx batch ic.2.comment_id).map (fun ci => (pj, ci))))) =
      (if (! isTopLevel batch root_id ic.2) then some ic.1 else none)
  by_cases hroot : ic.2.parent = root_id
  · simp [isTopLevel, hroot]
  · rcases hl : lookupIdx batch ic.2.parent with _ | pj
    · simp [isTopLevel, hroot, hl]
    · have hself : lookupIdx batch ic.2.comment_id = some ic.1 := by
        rw [← hval]; exact lookupIdx_self hids hi
      simp [isTopLevel, hroot, hl, hself]

/-- Every append event targets a valid parent index and carries a valid
child reference. -/
theorem extraCF_mem_lt {batch l : List Comment} {root_id : String} {e : Nat × Nat}
    (he : e ∈ extraCF batch root_id l) : e.1 < batch.length ∧ e.2 < batch.length := by
  unfold extraCF at he
  rw [List.mem_filterMap] at he
  obtain ⟨c, _, hc⟩ := he
  by_cases hroot : c.parent = root_id
  · rw [if_pos hroot] at hc
    exact Option.noConfusion hc
  · rw [if_neg hroot] at hc
    rcases hp : lookupIdx batch c.parent with _ | pj
    · rw [hp] at hc
      exact Option.noConfusion hc
    · rcases hs : lookupIdx batch c.comment_id with _ | ci
      · rw [hp, hs] at hc
        exact Option.noConfusion hc
      · rw [hp, hs] at hc
        obtain ⟨h1, _⟩ := lookupIdx_spec hp
        obtain ⟨h2, _⟩ := lookupIdx_spec hs
        have hpe : (pj, ci) = e := Option.some.inj hc
        rw [← hpe]
        exact ⟨h1, h2⟩

theorem flatMap_cons_point_perm {α : Type} (f g : Nat → List α) (a : α) (k : Nat) :
    ∀ L : List Nat, L.Nodup → k ∈ L → g k = a :: f k → (∀ j, j ≠ k → g j = f j) →
      (L.flatMap g).Perm (a :: L.flatMap f) := by
  intro L
  induction L with
  | nil => intro _ hk; exact absurd hk (List.not_mem_nil k)
  | cons x L ih =>
      intro hnd hk hgk hne
      have hx : x ∉ L := (List.nodup_cons.1 hnd).1
      have hndL : L.Nodup := (List.nodup_cons.1 hnd).2
      rw [List.flatMap_cons, List.flatMap_cons]
      by_cases hxk : x = k
      · subst hxk
        have hcong : L.flatMap g = L.flatMap f :=
          List.flatMap_congr (fun j hj => hne j (fun hjk => hx (hjk ▸ hj)))
        rw [hgk, hcong]
        exact List.Perm.refl _
      · have hkL : k ∈ L := by
          rcases List.mem_cons.1 hk with h | h
          · exact absurd h.symm hxk
          · exact h
        rw [hne x hxk]
        have h1 : (f x ++ L.flatMap g).Perm (f x ++ (a :: L.flatMap f)) :=
          List.Perm.append_left _ (ih hndL hkL hgk hne)
        exact h1.trans List.perm_middle

/-- Grouping append events by parent index and flattening recovers all child
references, up to permutation. -/
theorem flatMap_filter_perm {n : Nat} :
    ∀ log : List (Nat × Nat), (∀ e ∈ log, e.1 < n) →
      ((List.range n).flatMap
        (fun j => (log.filter (fun e => e.1 = j)).map Prod.snd)).Perm
        (log.map Prod.snd) := by
  intro log
  induction log with
  | nil => intro _; simp
  | cons e rest ih =>
      intro hb
      have hrest : ∀ x ∈ rest, x.1 < n := fun x hx => hb x (List.mem_cons_of_mem e hx)
      have hperm := flatMap_cons_point_perm
        (fun j => (rest.filter (fun q => q.1 = j)).map Prod.snd)
        (fun j => (((e :: rest)).filter (fun q => q.1 = j)).map Prod.snd)
        e.2 e.1 (List.range n) (List.nodup_range n)
        (List.mem_range.2 (hb e (List.mem_cons_self e rest)))
        (by
          show ((e :: rest).filter (fun q => q.1 = e.1)).map Prod.snd =
            e.2 :: (rest.filter (fun q => q.1 = e.1)).map Prod.snd
          rw [List.filter_cons, if_pos (by simp)]
          rfl)
        (by
          intro j hj
          show ((e :: rest).filter (fun q => q.1 = j)).map Prod.snd =
            (rest.filter (fun q => q.1 = j)).map Prod.snd
          rw [List.filter_cons, if_neg (by simpa using fun hh => hj hh.symm)])
      exact hperm.trans ((ih hrest).cons e.2)

/-- The top-level references together with all logged child references form a
permutation of all record indices of the batch (ids pairwise distinct). -/
theorem partition_idx_perm {batch : List Comment} {root_id : String}
    (hids : (batch.map Comment.comment_id).Nodup) :
    ((nestResult batch root_id).nested ++
      (extraCF batch root_id batch).map Prod.snd).Perm (List.range batch.length) := by
  show (nestedCF batch root_id batch ++ (extraCF batch root_id batch).map Prod.snd).Perm _
  rw [nestedCF_batch_eq hids, extraCF_snd_batch_eq hids, ← List.map_append]
  have hsplit := List.filter_append_perm
    (fun ic => isTopLevel batch root_id ic.2) batch.enum
  have hmap := hsplit.map Prod.fst
  rw [List.enum_map_fst] at hmap
  exact hmap

/-- Record `j` of the final store is record `j` of the batch with the logged
children for parent `j` appended to its replies list. -/
theorem nestResult_store_getD_eq {batch : List Comment} {root_id : String} {j : Nat}
    (hj : j < batch.length) :
    (nestResult batch root_id).store.getD j default =
      { batch.getD j default with comments_replies_list :=
          (batch.getD j default).comments_replies_list ++
            ((extraCF batch root_id batch).filter (fun e => e.1 = j)).map Prod.snd } := by
  show (applyLog batch (extraCF batch root_id batch)).getD j default = _
  rw [List.getD_eq_getElem?_getD, applyLog_getElem?, List.getElem?_eq_getElem hj,
    List.getD_eq_getElem _ _ hj]
  rfl

/-- Flattening the final replies lists of all records recovers all logged
child references, up to permutation (initial replies lists empty). -/
theorem replies_flat_perm {batch : List Comment} {root_id : String}
    (hempty : ∀ c ∈ batch, c.comments_replies_list = []) :
    ((List.range batch.length).flatMap
        (fun j => ((nestResult batch root_id).store.getD j default).comments_replies_list)).Perm
      ((extraCF batch root_id batch).map Prod.snd) := by
  have hcong : ((List.range batch.length).flatMap
        (fun j => ((nestResult batch root_id).store.getD j default).comments_replies_list)) =
      ((List.range batch.length).flatMap
        (fun j => ((extraCF batch root_id batch).filter (fun e => e.1 = j)).map Prod.snd)) := by
    apply List.flatMap_congr
    intro j hj
    have hjlt : j < batch.length := List.mem_range.1 hj
    rw [nestResult_store_getD_eq hjlt]
    have hbe : (batch.getD j default).comments_replies_list = [] := by
      rw [List.getD_eq_getElem _ _ hjlt]
      exact hempty _ (List.getElem_mem hjlt)
    rw [hbe]
    rfl
  rw [hcong]
  exact flatMap_filter_perm _ (fun e he => (extraCF_mem_lt he).1)

/-- C1: for every batch whose records carry pairwise distinct ids, empty
initial replies lists, and parents that are either the root sentinel or the
id of some other record of the batch, `nest_comments` partitions the batch:
the top-level references together with the references appearing in some
record's `comments_replies_list` are exactly the records of the batch
(a permutation of all record indices: no record duplicated, none omitted). -/
theorem nest_comments_partition (batch : List Comment) (root_id : String)
    (hids : (batch.map Comment.comment_id).Nodup)
    (hempty : ∀ c ∈ batch, c.comments_replies_list = [])
    (_hpar : ∀ c ∈ batch, c.parent = root_id ∨
      ∃ c2 ∈ batch, c2 ≠ c ∧ c2.comment_id = c.parent) :
    ∃ s, nest_comments batch root_id = some s ∧
      (s.nested ++ (List.range batch.length).flatMap
          (fun j => (s.store.getD j default).comments_replies_list)).Perm
        (List.range batch.length) := by
  refine ⟨nestResult batch root_id, nest_comments_eq batch root_id, ?_⟩
  have h1 := (@replies_flat_perm batch root_id hempty).append_left
    (nestResult batch root_id).nested
  exact h1.trans (partition_idx_perm hids)

/-- Witness for C1 on the batch `[a → root, b → a]`. -/
theorem nest_comments_partition_witness :
    ∃ s, nest_comments
        [{ comment_id := "a", url := "", parent := "root", reply_to := "",
           user_pro_pic := "", comment_time := 0, user_name := "",
           user_profile_url := "", comment_text := "", like_count := 0,
           total_views := 0, total_replies := 0, total_reposts := 0,
           comments_replies_list := [] },
         { comment_id := "b", url := "", parent := "a", reply_to := "",
           user_pro_pic := "", comment_time := 0, user_name := "",
           user_profile_url := "", comment_text := "", like_count := 0,
           total_views := 0, total_replies := 0, total_reposts := 0,
           comments_replies_list := [] }] "root" = some s ∧
      (s.nested ++ (List.range 2).flatMap
          (fun j => (s.store.getD j default).comments_replies_list)).Perm
        (List.range 2) :=
  nest_comments_partition _ "root" (by decide) (by decide) (by decide)

/-- A convenient constructor for concrete test records: all payload fields
empty/zero, replies list empty. -/
def mkComment (cid parent text : String) : Comment :=
  { comment_id := cid, url := "", parent := parent, reply_to := "",
    user_pro_pic := "", comment_time := 0, user_name := "",
    user_profile_url := "", comment_text := text, like_count := 0,
    total_views := 0, total_replies := 0, total_reposts := 0,
    comments_replies_list := [] }

/-- C5: on a batch with pairwise distinct ids (and empty initial replies
lists), no record is both an element of the returned top-level list and an
element of some record's `comments_replies_list`: top-level membership and
reply membership are mutually exclusive (records identified by their
references, i.e. batch indices). -/
theorem nest_comments_top_reply_exclusive (batch : List Comment) (root_id : String)
    (hids : (batch.map Comment.comment_id).Nodup)
    (hempty : ∀ c ∈ batch, c.comments_replies_list = []) :
    ∃ s, nest_comments batch root_id = some s ∧
      ∀ j, j ∈ s.nested →
        ∀ k, k < batch.length → j ∉ (s.store.getD k default).comments_replies_list := by
  refine ⟨nestResult batch root_id, nest_comments_eq batch root_id, ?_⟩
  intro j hj k hk hmem
  have h1 := (@replies_flat_perm batch root_id hempty).append_left
    (nestResult batch root_id).nested
  have hperm := h1.trans (partition_idx_perm hids)
  have hnodup : ((nestResult batch root_id).nested ++ (List.range batch.length).flatMap
      (fun j => ((nestResult batch root_id).store.getD j default).comments_replies_list)).Nodup :=
    hperm.symm.nodup (List.nodup_range batch.length)
  have hdisj := List.disjoint_of_nodup_append hnodup
  exact hdisj hj (List.mem_flatMap.2 ⟨k, List.mem_range.2 hk, hmem⟩)

/-- Witness for C5 on the batch `[x → root, y → x, z → root]`. -/
theorem nest_comments_top_reply_exclusive_witness :
    ∃ s, nest_comments
        [mkComment "x" "root" "", mkComment "y" "x" "", mkComment "z" "root" ""]
        "root" = some s ∧
      ∀ j, j ∈ s.nested →
        ∀ k, k < 3 → j ∉ (s.store.getD k default).comments_replies_list :=
  nest_comments_top_reply_exclusive _ "root" (by decide) (by decide)

/-- C8: `nest_comments` mutates only the `comments_replies_list` field of
records: for every record of the batch, every other field (`comment_id`,
`parent`, `url`, `reply_to`, author fields, `comment_text`, `comment_time`,
like/reply/repost/view counters) has the same value in the final store as in
the input batch, and the replies list is only ever appended to. -/
theorem nest_comments_frame (batch : List Comment) (root_id : String) :
    ∃ s, nest_comments batch root_id = some s ∧ s.store.length = batch.length ∧
      ∀ j, j < batch.length →
        ((s.store.getD j default).comment_id = (batch.getD j default).comment_id ∧
         (s.store.getD j default).url = (batch.getD j default).url ∧
         (s.store.getD j default).parent = (batch.getD j default).parent ∧
         (s.store.getD j default).reply_to = (batch.getD j default).reply_to ∧
         (s.store.getD j default).user_pro_pic = (batch.getD j default).user_pro_pic ∧
         (s.store.getD j default).comment_time = (batch.getD j default).comment_time ∧
         (s.store.getD j default).user_name = (batch.getD j default).user_name ∧
         (s.store.getD j default).user_profile_url = (batch.getD j default).user_profile_url ∧
         (s.store.getD j default).comment_text = (batch.getD j default).comment_text ∧
         (s.store.getD j default).like_count = (batch.getD j default).like_count ∧
         (s.store.getD j default).total_views = (batch.getD j default).total_views ∧
         (s.store.getD j default).total_replies = (batch.getD j default).total_replies ∧
         (s.store.getD j default).total_reposts = (batch.getD j default).total_reposts) ∧
        ∃ appended, (s.store.getD j default).comments_replies_list =
          (batch.getD j default).comments_replies_list ++ appended := by
  refine ⟨nestResult batch root_id, nest_comments_eq batch root_id, ?_, ?_⟩
  · exact applyLog_length _ _
  · intro j hj
    rw [nestResult_store_getD_eq hj]
    exact ⟨⟨rfl, rfl, rfl, rfl, rfl, rfl, rfl, rfl, rfl, rfl, rfl, rfl, rfl⟩, _, rfl⟩

/-- Witness for C8 on the batch `[p → root, q → p]`. -/
theorem nest_comments_frame_witness :
    ∃ s, nest_comments [mkComment "p" "root" "hello", mkComment "q" "p" "hi"]
        "root" = some s ∧ s.store.length = 2 ∧
      ∀ j, j < 2 →
        ((s.store.getD j default).comment_id =
            (([mkComment "p" "root" "hello", mkComment "q" "p" "hi"]).getD j default).comment_id ∧
         (s.store.getD j default).url =
            (([mkComment "p" "root" "hello", mkComment "q" "p" "hi"]).getD j default).url ∧
         (s.store.getD j default).parent =
            (([mkComment "p" "root" "hello", mkComment "q" "p" "hi"]).getD j default).parent ∧
         (s.store.getD j default).reply_to =
            (([mkComment "p" "root" "hello", mkComment "q" "p" "hi"]).getD j default).reply_to ∧
         (s.store.getD j default).user_pro_pic =
            (([mkComment "p" "root" "hello", mkComment "q" "p" "hi"]).getD j default).user_pro_pic ∧
         (s.store.getD j default).comment_time =
            (([mkComment "p" "root" "hello", mkComment "q" "p" "hi"]).getD j default).comment_time ∧
         (s.store.getD j default).user_name =
            (([mkComment "p" "root" "hello", mkComment "q" "p" "hi"]).getD j default).user_name ∧
         (s.store.getD j default).user_profile_url =
            (([mkComment "p" "root" "hello", mkComment "q" "p" "hi"]).getD j default).user_profile_url ∧
         (s.store.getD j default).comment_text =
            (([mkComment "p" "root" "hello", mkComment "q" "p" "hi"]).getD j default).comment_text ∧
         (s.store.getD j default).like_count =
            (([mkComment "p" "root" "hello", mkComment "q" "p" "hi"]).getD j default).like_count ∧
         (s.store.getD j default).total_views =
            (([mkComment "p" "root" "hello", mkComment "q" "p" "hi"]).getD j default).total_views ∧
         (s.store.getD j default).total_replies =
            (([mkComment "p" "root" "hello", mkComment "q" "p" "hi"]).getD j default).total_replies ∧
         (s.store.getD j default).total_reposts =
            (([mkComment "p" "root" "hello", mkComment "q" "p" "hi"]).getD j default).total_reposts) ∧
        ∃ appended, (s.store.getD j default).comments_replies_list =
          (([mkComment "p" "root" "hello", mkComment "q" "p" "hi"]).getD j default).comments_replies_list
            ++ appended :=
  nest_comments_frame [mkComment "p" "root" "hello", mkComment "q" "p" "hi"] "root"

/-- C9: `nest_comments` raises no error on any batch and any `root_id`:
every dictionary access it performs succeeds, so the `KeyError` branch of the
embedding is unreachable and a result is always returned; the empty batch
yields the empty top-level list. -/
theorem nest_comments_total (batch : List Comment) (root_id : String) :
    (nest_comments batch root_id).isSome = true ∧
      nest_comments ([] : List Comment) root_id = some { store := [], nested := [] } := by
  constructor
  · rw [nest_comments_eq]
    rfl
  · rfl

/-- C2 counterexample: with duplicate ids the claim fails.  On the batch
`[a → missing (orphan), a → root]` the lookup maps `"a"` to the later
record, so processing the orphan appends a reference to the *later* record:
the orphan itself (record 0) never appears in the top-level list, neither as
a reference nor as a value. -/
theorem nest_comments_orphan_cex :
    ∃ s, nest_comments
        [mkComment "a" "missing" "first", mkComment "a" "root" "second"]
        "root" = some s ∧
      s.nested = [1, 1] ∧ 0 ∉ s.nested ∧
      ∀ j ∈ s.nested, s.store.getD j default ≠ mkComment "a" "missing" "first" := by
  refine ⟨_, nest_comments_eq _ _, ?_, ?_, ?_⟩ <;> decide

/-- C2 (amended): on a batch with pairwise distinct ids, every orphan
record (parent neither `root_id` nor the id of any record of the batch)
appears in the returned top-level list; no such record is dropped. -/
theorem nest_comments_orphan_promoted (batch : List Comment) (root_id : String)
    (hids : (batch.map Comment.comment_id).Nodup)
    (i : Nat) (hi : i < batch.length)
    (_hroot : batch[i].parent ≠ root_id)
    (horph : ∀ c ∈ batch, c.comment_id ≠ batch[i].parent) :
    ∃ s, nest_comments batch root_id = some s ∧ i ∈ s.nested := by
  refine ⟨_, nest_comments_eq _ _, ?_⟩
  show i ∈ nestedCF batch root_id batch
  rw [nestedCF_batch_eq hids]
  refine List.mem_map.2 ⟨(i, batch[i]), List.mem_filter.2 ⟨?_, ?_⟩, rfl⟩
  · rw [List.mem_enum_iff_getElem?]
    exact List.getElem?_eq_getElem hi
  · have hnone : lookupIdx batch (batch[i]).parent = none :=
      lookupIdx_eq_none_iff.2 horph
    simp [isTopLevel, hnone]

/-- Witness for the amended C2 on `[o → gone (orphan), t → root]`. -/
theorem nest_comments_orphan_promoted_witness :
    ∃ s, nest_comments [mkComment "o" "gone" "", mkComment "t" "root" ""]
        "root" = some s ∧ 0 ∈ s.nested :=
  nest_comments_orphan_promoted _ "root" (by decide) 0 (by decide) (by decide)
    (by decide)

/-- C6 counterexample: on the duplicate-id batch
`[a → root, a → root]` the lookup does retain only the later `"a"` and no
exception is raised, but the threaded output contains two top-level
entries (both referencing the later record), not exactly one. -/
theorem nest_comments_duplicate_cex :
    lookupIdx [mkComment "a" "root" "earlier", mkComment "a" "root" "later"] "a"
      = some 1 ∧
    ∃ s, nest_comments
        [mkComment "a" "root" "earlier", mkComment "a" "root" "later"]
        "root" = some s ∧
      s.nested = [1, 1] ∧ s.nested.length ≠ 1 := by
  refine ⟨by decide, _, nest_comments_eq _ _, ?_, ?_⟩ <;> decide

/-- C6 (amended): on the duplicate-id batch `[a → root, a → root]` the
lookup retains only the later occurrence (last-write-wins) and no exception
is raised, and the threaded output contains exactly two top-level
entries for `"a"`, both of which are the later record. -/
theorem nest_comments_duplicate_amended :
    lookupIdx [mkComment "a" "root" "earlier", mkComment "a" "root" "later"] "a"
      = some 1 ∧
    ∃ s, nest_comments
        [mkComment "a" "root" "earlier", mkComment "a" "root" "later"]
        "root" = some s ∧
      s.nested = [1, 1] ∧
      ∀ j ∈ s.nested, s.store.getD j default = mkComment "a" "root" "later" := by
  refine ⟨by decide, _, nest_comments_eq _ _, ?_, ?_⟩ <;> decide

/-- C7 counterexample: a flat batch with a duplicated id.  Both loop
iterations append the lookup result, which is the later record, so the
output's records are *not* the input records in input order (position 0
differs).  Determinism still holds, but the claimed characterization of the
output fails without a distinct-ids assumption. -/
theorem nest_comments_flat_cex :
    ∃ s, nest_comments [mkComment "a" "root" "x", mkComment "a" "root" "y"]
        "root" = some s ∧
      s.nested.map (fun j => s.store.getD j default) ≠
        [mkComment "a" "root" "x", mkComment "a" "root" "y"] := by
  refine ⟨_, nest_comments_eq _ _, ?_⟩
  decide

theorem mem_of_mem_enum {batch : List Comment} {ic : Nat × Comment}
    (h : ic ∈ batch.enum) : ic.2 ∈ batch := by
  obtain ⟨hi, hval⟩ := mem_enum_getElem h
  exact hval ▸ List.getElem_mem hi

theorem map_getD_range (l : List Comment) :
    (List.range l.length).map (fun j => l.getD j default) = l := by
  apply List.ext_getElem (by simp)
  intro n h1 h2
  rw [List.getElem_map]
  rw [List.getElem_range]
  exact List.getD_eq_getElem l default h2

/-- C7 (amended): `nest_comments` is deterministic (it is a pure
function of its input, so running it twice yields structurally identical
output), and on a flat batch with pairwise distinct ids and empty initial
replies lists the output is exactly the records of the batch in input
order, with their replies lists still empty: the store is untouched and the
top-level references are `0, 1, …, n-1`. -/
theorem nest_comments_flat_idempotent (batch : List Comment) (root_id : String)
    (hids : (batch.map Comment.comment_id).Nodup)
    (hflat : ∀ c ∈ batch, c.parent = root_id) :
    ∃ s, nest_comments batch root_id = some s ∧
      nest_comments batch root_id = nest_comments batch root_id ∧
      s.store = batch ∧ s.nested = List.range batch.length ∧
      s.nested.map (fun j => s.store.getD j default) = batch := by
  refine ⟨nestResult batch root_id, nest_comments_eq _ _, rfl, ?_, ?_, ?_⟩
  · show applyLog batch (extraCF batch root_id batch) = batch
    have hnil : extraCF batch root_id batch = [] := by
      apply List.filterMap_eq_nil_iff.2
      intro c hc
      rw [if_pos (hflat c hc)]
    rw [hnil]
    rfl
  · show nestedCF batch root_id batch = List.range batch.length
    rw [nestedCF_batch_eq hids]
    have hfil : batch.enum.filter (fun ic => isTopLevel batch root_id ic.2) =
        batch.enum := by
      apply List.filter_eq_self.2
      intro ic hic
      have hp := hflat ic.2 (mem_of_mem_enum hic)
      simp [isTopLevel, hp]
    rw [hfil, List.enum_map_fst]
  · show (nestedCF batch root_id batch).map
        (fun j => (applyLog batch (extraCF batch root_id batch)).getD j default) = batch
    have hnil : extraCF batch root_id batch = [] := by
      apply List.filterMap_eq_nil_iff.2
      intro c hc
      rw [if_pos (hflat c hc)]
    have hn : nestedCF batch root_id batch = List.range batch.length := by
      rw [nestedCF_batch_eq hids]
      have hfil : batch.enum.filter (fun ic => isTopLevel batch root_id ic.2) =
          batch.enum := by
        apply List.filter_eq_self.2
        intro ic hic
        have hp := hflat ic.2 (mem_of_mem_enum hic)
        simp [isTopLevel, hp]
      rw [hfil, List.enum_map_fst]
    rw [hnil, hn]
    exact map_getD_range batch

/-- Witness for the amended C7 on the flat batch `[u → root, v → root]`. -/
theorem nest_comments_flat_idempotent_witness :
    ∃ s, nest_comments [mkComment "u" "root" "", mkComment "v" "root" ""]
        "root" = some s ∧
      nest_comments [mkComment "u" "root" "", mkComment "v" "root" ""]
          "root" =
        nest_comments [mkComment "u" "root" "", mkComment "v" "root" ""]
          "root" ∧
      s.store = [mkComment "u" "root" "", mkComment "v" "root" ""] ∧
      s.nested = List.range 2 ∧
      s.nested.map (fun j => s.store.getD j default) =
        [mkComment "u" "root" "", mkComment "v" "root" ""] :=
  nest_comments_flat_idempotent _ "root" (by decide) (by decide)

/-- One raw comment item of the yt-dlp `video_info["comments"]` list, with
the fields read by the first pass of `download_video_info`
(`download_video.py` / `main.py`): `id`, `parent`, `author_thumbnail`,
`timestamp`, `author`, `author_url`, `text`. -/
structure CItem where
  id : String
  parent : String
  author_thumbnail : String
  timestamp : Int
  author : String
  author_url : String
  text : String
deriving DecidableEq, Repr, Inhabited

/-- The `comment_data` dictionary built by the first pass of
`download_video_info`.  `comment_time` holds the formatted timestamp;
datetime formatting is irrelevant to the threading claims and is modelled as
the epoch value itself. -/
structure CommentData where
  comment_id : String
  parent : String
  user_pro_pic : String
  comment_time : Int
  user_name : String
  user_profile_url : String
  comment_text : String
  comments_replies : List CommentData

/-- The `comment_data` literal of the first pass: field renaming from the
raw item, `comments_replies` initialized empty. -/
def mkCommentData (it : CItem) : CommentData :=
  { comment_id := it.id, parent := it.parent, user_pro_pic := it.author_thumbnail,
    comment_time := it.timestamp, user_name := it.author,
    user_profile_url := it.author_url, comment_text := it.text,
    comments_replies := [] }

/-- Python dict assignment `d[k] = v` on an insertion-ordered dictionary
represented as an association list: overwriting an existing key keeps its
original position; a new key is appended. -/
def dictInsert (d : List (String × CommentData)) (k : String) (v : CommentData) :
    List (String × CommentData) :=
  if d.any (fun kv => kv.1 = k) then
    d.map (fun kv => if kv.1 = k then (k, v) else kv)
  else d ++ [(k, v)]

/-- First pass: `all_comments[comment_id] = comment_data` for each raw item,
in order. -/
def allCommentsOf (items : List CItem) : List (String × CommentData) :=
  items.foldl (fun d it => dictInsert d it.id (mkCommentData it)) []

/-- Second pass: `parent_to_children[parent_id].append(comment)` for each
entry of `all_comments` whose parent is not `"root"`, in iteration order.
The dict-of-lists is represented by its append log; the list stored under a
key is recovered by `childrenOf`. -/
def parentLog (allC : List (String × CommentData)) : List (String × CommentData) :=
  allC.filterMap (fun kc =>
    if kc.2.parent = "root" then none else some (kc.2.parent, kc.2))

/-- The list `parent_to_children[p]` (empty when `p` was never a key). -/
def childrenOf (log : List (String × CommentData)) (p : String) : List CommentData :=
  (log.filter (fun e => e.1 = p)).map Prod.snd

/-- Third pass: emit, in `all_comments` iteration order, each comment whose
parent is `"root"`, with its direct children (shallow copies, whose own
replies lists are still empty) appended to `comments_replies`.  This is the
`formatted_data["comments"]` list of `download_video_info`. -/
def threadComments (items : List CItem) : List CommentData :=
  (allCommentsOf items).filterMap (fun kc =>
    if kc.2.parent = "root" then
      some { kc.2 with
        comments_replies := childrenOf (parentLog (allCommentsOf items)) kc.1 }
    else none)

/-- The comment-count aggregates computed at the end of
`download_video_info`: `comment_count` from the video metadata (defaulting
to 0 when absent), the number of scraped raw comment items, and
`percent_comments`, set to `None` when `comment_count == 0` and to the
division otherwise.  Python float division is modelled by exact rational
division. -/
structure VideoInfo where
  comment_count : Option Nat
  comments : List CItem
deriving Repr

structure Aggregates where
  total_comments : Nat
  total_comments_scraped : Nat
  percent_comments : Option ℚ
deriving Repr

def video_aggregates (vi : VideoInfo) : Aggregates :=
  { total_comments := vi.comment_count.getD 0
    total_comments_scraped := vi.comments.length
    percent_comments :=
      if vi.comment_count.getD 0 = 0 then none
      else some ((vi.comments.length : ℚ) / ((vi.comment_count.getD 0 : Nat) : ℚ)) }

/-- A convenient constructor for concrete raw items. -/
def mkCItem (i p : String) : CItem :=
  { id := i, parent := p, author_thumbnail := "", timestamp := 0,
    author := "", author_url := "", text := "" }

/-- C10: `percent_comments` is computed without division by zero:
whenever the reported `comment_count` is 0 (or absent) it is `None`, and
whenever it is nonzero it equals the number of scraped comments divided by
`comment_count`. -/
theorem percent_comments_no_div_zero (vi : VideoInfo) :
    (vi.comment_count.getD 0 = 0 →
      (video_aggregates vi).percent_comments = none) ∧
    (vi.comment_count.getD 0 ≠ 0 →
      (video_aggregates vi).percent_comments =
        some ((vi.comments.length : ℚ) / ((vi.comment_count.getD 0 : Nat) : ℚ))) := by
  constructor
  · intro h
    simp [video_aggregates, h]
  · intro h
    simp [video_aggregates, h]

/-- Witness for C10: zero reported count gives `None`; count 4 with 2
scraped comments gives the exact ratio. -/
theorem percent_comments_no_div_zero_witness :
    (video_aggregates ⟨some 0, []⟩).percent_comments
        = none ∧
    (video_aggregates
        ⟨some 4, [mkCItem "a" "root", mkCItem "b" "root"]⟩).percent_comments
      = some ((([mkCItem "a" "root", mkCItem "b" "root"] : List CItem).length : ℚ) /
          (((some 4 : Option Nat).getD 0 : Nat) : ℚ)) :=
  ⟨(percent_comments_no_div_zero _).1 rfl,
   (percent_comments_no_div_zero _).2 (by decide)⟩

theorem dictInsert_key_mem {d : List (String × CommentData)} {k : String}
    {v : CommentData} {s : String}
    (h : s ∈ (dictInsert d k v).map Prod.fst) : s ∈ d.map Prod.fst ∨ s = k := by
  unfold dictInsert at h
  by_cases ha : d.any (fun kv => kv.1 = k)
  · rw [if_pos ha] at h
    obtain ⟨kv, hkv, hs⟩ := List.mem_map.1 h
    obtain ⟨kv0, hkv0, hval⟩ := List.mem_map.1 hkv
    by_cases hk : kv0.1 = k
    · rw [if_pos hk] at hval
      right
      rw [← hs, ← hval]
    · rw [if_neg hk] at hval
      left
      rw [← hs, ← hval]
      exact List.mem_map_of_mem Prod.fst hkv0
  · rw [if_neg ha, List.map_append] at h
    rcases List.mem_append.1 h with h1 | h1
    · exact Or.inl h1
    · right
      simpa using h1

theorem foldl_dictInsert_keys (items : List CItem) :
    ∀ (d : List (String × CommentData)) (s : String),
      s ∈ ((items.foldl (fun d it => dictInsert d it.id (mkCommentData it)) d).map
        Prod.fst) →
      s ∈ d.map Prod.fst ∨ s ∈ items.map CItem.id := by
  induction items with
  | nil =>
      intro d s h
      exact Or.inl h
  | cons it rest ih =>
      intro d s h
      rcases ih (dictInsert d it.id (mkCommentData it)) s h with h1 | h1
      · rcases dictInsert_key_mem h1 with h2 | h2
        · exact Or.inl h2
        · right
          rw [List.map_cons, h2]
          exact List.mem_cons_self _ _
      · right
        rw [List.map_cons]
        exact List.mem_cons_of_mem _ h1

/-- Every key of `all_comments` is the id of some raw item. -/
theorem allCommentsOf_key_mem {items : List CItem} {kc : String × CommentData}
    (h : kc ∈ allCommentsOf items) : kc.1 ∈ items.map CItem.id := by
  rcases foldl_dictInsert_keys items [] kc.1 (List.mem_map_of_mem Prod.fst h) with h1 | h1
  · exact absurd h1 (List.not_mem_nil _)
  · exact h1

/-- Structure of the third-pass output: each emitted entry comes from an
`all_comments` entry whose parent is `"root"`, with the grouped children
attached. -/
theorem threadComments_mem {items : List CItem} {e : CommentData}
    (h : e ∈ threadComments items) :
    ∃ kc ∈ allCommentsOf items, kc.2.parent = "root" ∧
      e = { kc.2 with
        comments_replies := childrenOf (parentLog (allCommentsOf items)) kc.1 } := by
  unfold threadComments at h
  rw [List.mem_filterMap] at h
  obtain ⟨kc, hkc, hf⟩ := h
  by_cases hroot : kc.2.parent = "root"
  · rw [if_pos hroot] at hf
    exact ⟨kc, hkc, hroot, (Option.some.inj hf).symm⟩
  · rw [if_neg hroot] at hf
    exact Option.noConfusion hf

/-- Every append event of the second pass is keyed by the child's own
parent field (which is not `"root"`). -/
theorem parentLog_mem {allC : List (String × CommentData)} {e : String × CommentData}
    (h : e ∈ parentLog allC) : e.1 = e.2.parent ∧ e.2.parent ≠ "root" := by
  unfold parentLog at h
  rw [List.mem_filterMap] at h
  obtain ⟨kc, _, hf⟩ := h
  by_cases hroot : kc.2.parent = "root"
  · rw [if_pos hroot] at hf
    exact Option.noConfusion hf
  · rw [if_neg hroot] at hf
    have he := Option.some.inj hf
    constructor
    · rw [← he]
    · rw [← he]
      exact hroot

theorem childrenOf_mem {log : List (String × CommentData)} {p : String}
    {r : CommentData} (h : r ∈ childrenOf log p) :
    ∃ e ∈ log, e.1 = p ∧ e.2 = r := by
  unfold childrenOf at h
  obtain ⟨e, he, hr⟩ := List.mem_map.1 h
  refine ⟨e, List.mem_of_mem_filter he, ?_, hr⟩
  have := List.of_mem_filter he
  exact of_decide_eq_true this

/-- C3 counterexample: the three-pass threading of `download_video_info`
silently drops orphans.  On the single-record batch `[x → missing]` the
output `comments` list is empty: the orphan `x` does not appear at the top
level (and appears nowhere at all), contradicting the claimed orphan
promotion. -/
theorem threadComments_orphan_cex :
    threadComments [mkCItem "x" "missing"] = [] ∧
      mkCommentData (mkCItem "x" "missing") ∉ threadComments [mkCItem "x" "missing"] := by
  refine ⟨rfl, ?_⟩
  rw [show threadComments [mkCItem "x" "missing"] = [] from rfl]
  exact List.not_mem_nil _

/-- C3 (amended): in the three-pass variant of `download_video_info`,
every comment record whose parent is neither `"root"` nor the id of any
record of the batch is *omitted from the formatted output entirely*: it
appears neither in the top-level `comments` list nor in any emitted
record's `comments_replies` (orphans are silently dropped, unlike in
`nest_comments`). -/
theorem threadComments_orphan_dropped (items : List CItem) (it : CItem)
    (hroot : it.parent ≠ "root")
    (horph : ∀ x ∈ items, x.id ≠ it.parent) :
    mkCommentData it ∉ threadComments items ∧
      ∀ e ∈ threadComments items, mkCommentData it ∉ e.comments_replies := by
  constructor
  · intro hmem
    obtain ⟨kc, _, hkroot, he⟩ := threadComments_mem hmem
    apply hroot
    have hp := congrArg CommentData.parent he
    exact hp.trans hkroot
  · intro e he hmem
    obtain ⟨kc, hkcmem, hkroot, hee⟩ := threadComments_mem he
    have her : e.comments_replies =
        childrenOf (parentLog (allCommentsOf items)) kc.1 := by
      rw [hee]
    rw [her] at hmem
    obtain ⟨ev, hev, hev1, hev2⟩ := childrenOf_mem hmem
    obtain ⟨he1, _⟩ := parentLog_mem hev
    have hk : kc.1 ∈ items.map CItem.id := allCommentsOf_key_mem hkcmem
    obtain ⟨x, hx, hxid⟩ := List.mem_map.1 hk
    apply horph x hx
    rw [hxid, ← hev1, he1, hev2]
    rfl

/-- Witness for the amended C3 on `[w → lost (orphan), r → root]`. -/
theorem threadComments_orphan_dropped_witness :
    mkCommentData (mkCItem "w" "lost") ∉
        threadComments [mkCItem "w" "lost", mkCItem "r" "root"] ∧
      ∀ e ∈ threadComments [mkCItem "w" "lost", mkCItem "r" "root"],
        mkCommentData (mkCItem "w" "lost") ∉ e.comments_replies :=
  threadComments_orphan_dropped [mkCItem "w" "lost", mkCItem "r" "root"]
    (mkCItem "w" "lost") (by decide) (by decide)

theorem pair_sublist {α : Type} :
    ∀ (l : List α) (i j : Nat) (hi : i < l.length) (hj : j < l.length), i < j →
      List.Sublist [l[i], l[j]] l := by
  intro l
  induction l with
  | nil =>
      intro i j hi
      exact absurd hi (by simp)
  | cons a t ih =>
      intro i j hi hj hij
      cases i with
      | zero =>
          cases j with
          | zero => omega
          | succ j2 =>
              have hj2 : j2 < t.length := by simpa using hj
              rw [show (a :: t)[0] = a from rfl, List.getElem_cons_succ a t j2 hj]
              exact List.Sublist.cons₂ a (List.singleton_sublist.2 (List.getElem_mem hj2))
      | succ i2 =>
          cases j with
          | zero => omega
          | succ j2 =>
              have hi2 : i2 < t.length := by simpa using hi
              have hj2 : j2 < t.length := by simpa using hj
              rw [List.getElem_cons_succ a t i2 hi, List.getElem_cons_succ a t j2 hj]
              exact List.Sublist.cons a (ih i2 j2 hi2 hj2 (by omega))

/-- With pairwise distinct ids, the append events in enumerated form: record
`i` with a non-sentinel parent found at index `pj` contributes `(pj, i)`. -/
theorem extraCF_batch_eq {batch : List Comment} {root_id : String}
    (hids : (batch.map Comment.comment_id).Nodup) :
    extraCF batch root_id batch =
      batch.enum.filterMap (fun ic =>
        if ic.2.parent = root_id then none
        else (lookupIdx batch ic.2.parent).map (fun pj => (pj, ic.1))) := by
  unfold extraCF
  have hrw := List.filterMap_map Prod.snd
    (fun c => if c.parent = root_id then none
      else (lookupIdx batch c.parent).bind (fun pj =>
        (lookupIdx batch c.comment_id).map (fun ci => (pj, ci)))) batch.enum
  rw [List.enum_map_snd] at hrw
  rw [hrw]
  apply List.filterMap_congr
  intro ic hic
  obtain ⟨hi, hval⟩ := mem_enum_getElem hic
  show (if ic.2.parent = root_id then none
        else (lookupIdx batch ic.2.parent).bind (fun pj =>
          (lookupIdx batch ic.2.comment_id).map (fun ci => (pj, ci)))) =
      (if ic.2.parent = root_id then none
        else (lookupIdx batch ic.2.parent).map (fun pj => (pj, ic.1)))
  by_cases hroot : ic.2.parent = root_id
  · rw [if_pos hroot, if_pos hroot]
  · rw [if_neg hroot, if_neg hroot]
    have hself : lookupIdx batch ic.2.comment_id = some ic.1 := by
      rw [← hval]
      exact lookupIdx_self hids hi
    rcases hl : lookupIdx batch ic.2.parent with _ | pj
    · rfl
    · simp [hself]

/-- Sibling order in `nest_comments`: two records of a distinct-ids batch
pointing at the same non-sentinel parent appear in the parent's final
replies list in input order. -/
theorem nest_sibling_order (batch : List Comment) (root_id : String)
    (hids : (batch.map Comment.comment_id).Nodup)
    (hempty : ∀ c ∈ batch, c.comments_replies_list = [])
    (k : Nat) (hk : k < batch.length) (hkid : batch[k].comment_id ≠ root_id)
    (i j : Nat) (hi : i < batch.length) (hj : j < batch.length) (hij : i < j)
    (hpi : batch[i].parent = batch[k].comment_id)
    (hpj : batch[j].parent = batch[k].comment_id) :
    List.Sublist [i, j]
      ((nestResult batch root_id).store.getD k default).comments_replies_list := by
  have hlk : lookupIdx batch batch[k].comment_id = some k := lookupIdx_self hids hk
  have hiE : i < batch.enum.length := by rw [List.enum_length]; exact hi
  have hjE : j < batch.enum.length := by rw [List.enum_length]; exact hj
  have hsub0 := pair_sublist batch.enum i j hiE hjE hij
  rw [List.getElem_enum, List.getElem_enum] at hsub0
  have hsub1 := hsub0.filterMap (fun ic : Nat × Comment =>
    if ic.2.parent = root_id then none
    else (lookupIdx batch ic.2.parent).map (fun pj => (pj, ic.1)))
  have hne_i : ¬ batch[i].parent = root_id := by rw [hpi]; exact hkid
  have hne_j : ¬ batch[j].parent = root_id := by rw [hpj]; exact hkid
  have hcomp : List.filterMap (fun ic : Nat × Comment =>
      if ic.2.parent = root_id then none
      else (lookupIdx batch ic.2.parent).map (fun pj => (pj, ic.1)))
      [(i, batch[i]), (j, batch[j])] = [(k, i), (k, j)] := by
    simp [List.filterMap_cons, hne_i, hne_j, hpi, hpj, hlk, hkid]
  rw [hcomp, ← extraCF_batch_eq hids] at hsub1
  have hsub2 := List.Sublist.filter (fun e : Nat × Nat => e.1 = k) hsub1
  have hfil : List.filter (fun e : Nat × Nat => e.1 = k) [(k, i), (k, j)]
      = [(k, i), (k, j)] := by simp
  rw [hfil] at hsub2
  have hsub3 := hsub2.map Prod.snd
  rw [nestResult_store_getD_eq hk]
  have hbe : (batch.getD k default).comments_replies_list = [] := by
    rw [List.getD_eq_getElem _ _ hk]
    exact hempty _ (List.getElem_mem hk)
  rw [hbe]
  simpa using hsub3

theorem allCommentsOf_go (items : List CItem) :
    ∀ d : List (String × CommentData),
      (items.map CItem.id).Nodup →
      (∀ s ∈ d.map Prod.fst, ∀ it ∈ items, s ≠ it.id) →
      items.foldl (fun d2 it => dictInsert d2 it.id (mkCommentData it)) d =
        d ++ items.map (fun it => (it.id, mkCommentData it)) := by
  induction items with
  | nil =>
      intro d _ _
      simp
  | cons it rest ih =>
      intro d hnd hdis
      rw [List.foldl_cons]
      have hnotin : ¬ d.any (fun kv => kv.1 = it.id) = true := by
        intro hany
        obtain ⟨kv, hkv, hkvid⟩ := List.any_eq_true.1 hany
        exact hdis kv.1 (List.mem_map_of_mem Prod.fst hkv) it
          (List.mem_cons_self _ _) (of_decide_eq_true hkvid)
      have hins : dictInsert d it.id (mkCommentData it)
          = d ++ [(it.id, mkCommentData it)] := by
        unfold dictInsert
        rw [if_neg hnotin]
      have hnd2 : (rest.map CItem.id).Nodup := by
        rw [List.map_cons] at hnd
        exact (List.nodup_cons.1 hnd).2
      have hhead : it.id ∉ rest.map CItem.id := by
        rw [List.map_cons] at hnd
        exact (List.nodup_cons.1 hnd).1
      have hdis2 : ∀ s ∈ (d ++ [(it.id, mkCommentData it)]).map Prod.fst,
          ∀ it2 ∈ rest, s ≠ it2.id := by
        intro s hs it2 hit2 hse
        rw [List.map_append] at hs
        rcases List.mem_append.1 hs with h1 | h1
        · exact hdis s h1 it2 (List.mem_cons_of_mem _ hit2) hse
        · have hsid : s = it.id := by simpa using h1
          apply hhead
          rw [← hsid, hse]
          exact List.mem_map_of_mem CItem.id hit2
      rw [hins, ih (d ++ [(it.id, mkCommentData it)]) hnd2 hdis2]
      simp

/-- With pairwise distinct ids no overwrite ever happens: `all_comments` is
the items in order, keyed by their ids. -/
theorem allCommentsOf_eq {items : List CItem}
    (hids : (items.map CItem.id).Nodup) :
    allCommentsOf items = items.map (fun it => (it.id, mkCommentData it)) := by
  unfold allCommentsOf
  rw [allCommentsOf_go items [] hids (by simp)]
  rfl

/-- Closed form of `parent_to_children[pid]` when `all_comments` has one
entry per item: the items whose parent is `pid` (and not `"root"`), in input
order. -/
theorem childrenOf_log (l : List CItem) (pid : String) :
    childrenOf (parentLog (l.map (fun it => (it.id, mkCommentData it)))) pid =
      (l.filter (fun it => !(it.parent = "root") && (it.parent = pid))).map
        mkCommentData := by
  induction l with
  | nil => rfl
  | cons it rest ih =>
      rw [List.map_cons]
      show childrenOf (parentLog ((it.id, mkCommentData it)
        :: rest.map (fun it => (it.id, mkCommentData it)))) pid = _
      unfold parentLog childrenOf at ih ⊢
      rw [List.filterMap_cons, List.filter_cons]
      by_cases hroot : it.parent = "root"
      · have hc : (mkCommentData it).parent = "root" := hroot
        rw [if_pos hc]
        have hq : (!(it.parent = "root") && (it.parent = pid)) = false := by
          simp [hroot]
        rw [if_neg (by simp [hq])]
        exact ih
      · have hc : ¬ (mkCommentData it).parent = "root" := hroot
        rw [if_neg hc]
        rw [List.filter_cons]
        by_cases hpid : it.parent = pid
        · have h1 : ((it.parent, mkCommentData it) : String × CommentData).1 = pid :=
            hpid
          rw [if_pos (by simpa using h1)]
          have hq : (!(it.parent = "root") && (it.parent = pid)) = true := by
            rw [hpid] at hroot
            simp [hroot, hpid]
          rw [if_pos hq, List.map_cons, List.map_cons]
          rw [ih]
        · have h1 : ¬ ((it.parent, mkCommentData it) : String × CommentData).1 = pid :=
            hpid
          rw [if_neg (by simpa using h1)]
          have hq : (!(it.parent = "root") && (it.parent = pid)) = false := by
            simp [hpid]
          rw [if_neg (by simp [hq])]
          exact ih

/-- Sibling order in the three-pass threading: two items pointing at the
same parent id, when that parent is a top-level item (its own parent is the
sentinel `"root"`), appear in that parent's output replies list in input
order. -/
theorem thread_sibling_order (items : List CItem)
    (hids : (items.map CItem.id).Nodup)
    (k : Nat) (hk : k < items.length) (hkroot : items[k].parent = "root")
    (hkid : items[k].id ≠ "root")
    (i j : Nat) (hi : i < items.length) (hj : j < items.length) (hij : i < j)
    (hpi : items[i].parent = items[k].id) (hpj : items[j].parent = items[k].id) :
    ∃ e ∈ threadComments items, e.comment_id = items[k].id ∧
      List.Sublist [mkCommentData items[i], mkCommentData items[j]]
        e.comments_replies := by
  refine ⟨{ mkCommentData items[k] with
      comments_replies :=
        childrenOf (parentLog (allCommentsOf items)) items[k].id }, ?_, rfl, ?_⟩
  · unfold threadComments
    apply List.mem_filterMap.2
    refine ⟨(items[k].id, mkCommentData items[k]), ?_, ?_⟩
    · rw [allCommentsOf_eq hids]
      exact List.mem_map_of_mem _ (List.getElem_mem hk)
    · have hc : ((items[k].id, mkCommentData items[k]) :
          String × CommentData).2.parent = "root" := hkroot
      rw [if_pos hc]
  · show List.Sublist _ (childrenOf (parentLog (allCommentsOf items)) items[k].id)
    rw [allCommentsOf_eq hids, childrenOf_log]
    have hsubl := pair_sublist items i j hi hj hij
    have hsub2 := List.Sublist.filter
      (fun it => !(it.parent = "root") && (it.parent = items[k].id)) hsubl
    have hQi : (!(items[i].parent = "root") && (items[i].parent = items[k].id))
        = true := by
      rw [hpi]
      simp [hkid]
    have hQj : (!(items[j].parent = "root") && (items[j].parent = items[k].id))
        = true := by
      rw [hpj]
      simp [hkid]
    have hfil : List.filter
        (fun it => !(it.parent = "root") && (it.parent = items[k].id))
        [items[i], items[j]] = [items[i], items[j]] := by
      rw [List.filter_cons, if_pos hQi, List.filter_cons, if_pos hQj]
      rfl
    rw [hfil] at hsub2
    exact hsub2.map mkCommentData

/-- C4 counterexample: the three-pass variant does not place siblings in
their (non-top-level) parent's replies list at all.  On
`[a → root, b → a, c → b, d → b]` the records `c` and `d` share the parent
`b`, which is present in the batch, yet the output is a single entry `a`
whose only reply is `b`, and the `b` entry carries an empty replies list:
`c` does not precede `d` in `b`'s replies, both are dropped. -/
theorem threadComments_deep_reply_cex :
    threadComments [mkCItem "a" "root", mkCItem "b" "a",
        mkCItem "c" "b", mkCItem "d" "b"] =
      [{ mkCommentData (mkCItem "a" "root") with
          comments_replies := [mkCommentData (mkCItem "b" "a")] }] ∧
    (mkCommentData (mkCItem "b" "a")).comments_replies = [] ∧
    ∀ e ∈ threadComments [mkCItem "a" "root", mkCItem "b" "a",
        mkCItem "c" "b", mkCItem "d" "b"],
      ∀ r ∈ e.comments_replies,
        mkCommentData (mkCItem "c" "b") ∉ r.comments_replies := by
  have hout : threadComments [mkCItem "a" "root", mkCItem "b" "a",
      mkCItem "c" "b", mkCItem "d" "b"] =
      [{ mkCommentData (mkCItem "a" "root") with
          comments_replies := [mkCommentData (mkCItem "b" "a")] }] := rfl
  refine ⟨hout, rfl, ?_⟩
  intro e he r hr
  rw [hout] at he
  rw [List.mem_singleton] at he
  subst he
  have hr2 : r = mkCommentData (mkCItem "b" "a") := List.mem_singleton.1 hr
  subst hr2
  exact List.not_mem_nil _

/-- C4 (amended): for batches with pairwise distinct ids, records
sharing the same parent appear in that parent's replies list in input
order (insertion order preserved), where the shared parent's id is not the
sentinel.  This holds in `nest_comments` for any parent present in the
batch; in the three-pass variant it holds when the shared parent is itself
a top-level (`parent == "root"`) record — replies to non-top-level parents
are dropped there (see the counterexample). -/
theorem sibling_reply_order :
    (∀ (batch : List Comment) (root_id : String),
      (batch.map Comment.comment_id).Nodup →
      (∀ c ∈ batch, c.comments_replies_list = []) →
      ∀ k (hk : k < batch.length), batch[k].comment_id ≠ root_id →
      ∀ i j (hi : i < batch.length) (hj : j < batch.length), i < j →
        batch[i].parent = batch[k].comment_id →
        batch[j].parent = batch[k].comment_id →
        ∃ s, nest_comments batch root_id = some s ∧
          List.Sublist [i, j] ((s.store.getD k default).comments_replies_list)) ∧
    (∀ items : List CItem,
      (items.map CItem.id).Nodup →
      ∀ k (hk : k < items.length), items[k].parent = "root" →
        items[k].id ≠ "root" →
      ∀ i j (hi : i < items.length) (hj : j < items.length), i < j →
        items[i].parent = items[k].id →
        items[j].parent = items[k].id →
        ∃ e ∈ threadComments items, e.comment_id = items[k].id ∧
          List.Sublist [mkCommentData items[i], mkCommentData items[j]]
            e.comments_replies) := by
  constructor
  · intro batch root_id hids hempty k hk hkid i j hi hj hij hpi hpj
    exact ⟨nestResult batch root_id, nest_comments_eq batch root_id,
      nest_sibling_order batch root_id hids hempty k hk hkid i j hi hj hij hpi hpj⟩
  · intro items hids k hk hkroot hkid i j hi hj hij hpi hpj
    exact thread_sibling_order items hids k hk hkroot hkid i j hi hj hij hpi hpj

/-- Witness for the amended C4: `nest_comments` on `[p → root, q → p,
r → p]` puts `q` before `r` in `p`'s replies; the three-pass variant on
`[t → root, u → t, v → t]` puts `u` before `v` in `t`'s replies. -/
theorem sibling_reply_order_witness :
    (∃ s, nest_comments
        [mkComment "p" "root" "", mkComment "q" "p" "", mkComment "r" "p" ""]
        "root" = some s ∧
      List.Sublist [1, 2] ((s.store.getD 0 default).comments_replies_list)) ∧
    (∃ e ∈ threadComments [mkCItem "t" "root", mkCItem "u" "t", mkCItem "v" "t"],
      e.comment_id = "t" ∧
      List.Sublist [mkCommentData (mkCItem "u" "t"), mkCommentData (mkCItem "v" "t")]
        e.comments_replies) :=
  ⟨sibling_reply_order.1
      [mkComment "p" "root" "", mkComment "q" "p" "", mkComment "r" "p" ""]
      "root" (by decide) (by decide) 0 (by decide) (by decide)
      1 2 (by decide) (by decide) (by decide) (by decide) (by decide),
   sibling_reply_order.2
      [mkCItem "t" "root", mkCItem "u" "t", mkCItem "v" "t"]
      (by decide) 0 (by decide) (by decide) (by decide)
      1 2 (by decide) (by decide) (by decide) (by decide) (by decide)⟩
